import Mathlib

/-!
Shallow embedding of the ESL teaching circuits (blinker/adder/counter, PWM ramp,
block and dual-port RAM, reset generator, debouncer and classic FSM) together
with the two-phase signal semantics of the HDL kernel they run on.

Kernel conventions, modelled from the spec (the kernel itself is an external
dependency of the repository): every Signal carries a current value and a next
slot; a sequential block triggered on a clock edge reads the pre-edge current
values of the signals it references and writes next slots; all next slots
commit together after every block triggered on that edge has run.  A next slot
that no block writes in a round keeps the value scheduled last (it is never
reset to a default), and a commit leaves a signal's next slot equal to its new
current value, so at the start of an edge the two coincide.  Blocks below are
therefore embedded as functions from a pre-edge state `cur` and a record of
next slots `nxt` to the updated record of next slots; a whole clock edge
applies the blocks to `nxt := cur` and the result is the committed state.
-/

namespace ESL

namespace Deb

/-- State of the debouncer (src/5/fsm.py, `debouncer`): the `debounce_cnt` bus,
the `prev_button` wire and the `button_o` output wire.  The counter bus is wide
enough to hold `debounce_time`, so its arithmetic never wraps and `Nat` is an
exact model of it. -/
structure DebState where
  debounce_cnt : Nat
  prev_button  : Bool
  button_o     : Bool
deriving DecidableEq

/-- The `next_state_logic` sequential block of the debouncer: compares the raw
input with the previously sampled value, decrements the counter while they
agree (stopping at zero), reloads it with `debounce_time` on a mismatch, and
samples the raw input into `prev_button`.  All reads are from the pre-edge
state `cur`; all writes go to the next-slot record `nxt`. -/
def next_state_logic (debounce_time : Nat) (button_i : Bool)
    (cur nxt : DebState) : DebState :=
  let n1 :=
    if button_i = cur.prev_button then
      if cur.debounce_cnt ≠ 0 then
        { nxt with debounce_cnt := cur.debounce_cnt - 1 }
      else
        nxt
    else
      { nxt with debounce_cnt := debounce_time }
  { n1 with prev_button := button_i }

/-- The `output_logic` sequential block of the debouncer: when the pre-edge
counter is zero it latches the pre-edge `prev_button` value into `button_o`;
otherwise it leaves the `button_o` next slot untouched. -/
def output_logic (cur nxt : DebState) : DebState :=
  if cur.debounce_cnt = 0 then { nxt with button_o := cur.prev_button } else nxt

/-- One rising clock edge of the debouncer: both sequential blocks evaluate
against the pre-edge state and the accumulated next slots commit together.
The previous commit left every next slot equal to its current value, so the
slot record entering the edge is `cur` itself. -/
def debEdge (debounce_time : Nat) (button_i : Bool) (cur : DebState) : DebState :=
  output_logic cur (next_state_logic debounce_time button_i cur cur)

/-- Iterated clock edges from a given state, feeding the input trace `inp`
(edge `k` samples `inp k`). -/
def debSteps (debounce_time : Nat) (inp : Nat → Bool) (s : DebState) : Nat → DebState
  | 0 => s
  | k + 1 => debEdge debounce_time (inp k) (debSteps debounce_time inp s k)

/-- A debouncer run from its power-up state: counter, `prev_button` and
`button_o` all start at zero. -/
def debRun (debounce_time : Nat) (inp : Nat → Bool) (k : Nat) : DebState :=
  debSteps debounce_time inp ⟨0, false, false⟩ k

/-- Raw-input trace that toggles every cycle for the first `k` cycles and then
holds steady at `v`: positions `0 ≤ j < k` alternate, ending with `¬ v` at
position `k - 1`, and every position `j ≥ k` is `v` (so the last toggle is
consumed at edge `k`). -/
def toggleInp (v : Bool) (k : Nat) (j : Nat) : Bool :=
  if j < k then xor v (decide ((k - j) % 2 = 1)) else v

end Deb

namespace Pwm

/-- State of the `ramp` chunk (src/3/pwm.py): the `ramp_o` bus and the `delta`
bus, both of the same width `w`; values live modulo `m = 2 ^ w`
(`m` is `ramp_o.max`). -/
structure RampState where
  ramp_o : Nat
  delta  : Nat
deriving DecidableEq

/-- The sequential block of `ramp`: schedules `ramp_o + delta` (wrapping
modulo `m`), then switches `delta` to `+1` at `ramp_o = 1`, to `-1`
(i.e. `m - 1`) at `ramp_o = m - 2`, and kick-starts the ramp out of the
post-configuration state `delta = 0` by scheduling both `delta` and `ramp_o`
to `1`.  In any other case `delta`'s next slot is left untouched. -/
def rampLogic (m : Nat) (cur nxt : RampState) : RampState :=
  let n1 := { nxt with ramp_o := (cur.ramp_o + cur.delta) % m }
  if cur.ramp_o = 1 then
    { n1 with delta := 1 }
  else if cur.ramp_o = m - 2 then
    { n1 with delta := m - 1 }
  else if cur.delta = 0 then
    { n1 with delta := 1, ramp_o := 1 }
  else
    n1

/-- One rising clock edge of the ramp register. -/
def rampEdge (m : Nat) (cur : RampState) : RampState := rampLogic m cur cur

/-- Ramp run from the post-reset state `ramp_o = 0`, `delta = 0`. -/
def rampRun (m : Nat) : Nat → RampState
  | 0 => ⟨0, 0⟩
  | k + 1 => rampEdge m (rampRun m k)

end Pwm

namespace Adder

/-- The `full_adder_bit` combinational block (src/2/blinker.py): sum bit is
the exclusive-or of the three inputs, carry-out is the majority of them. -/
def full_adder_bit (a_i b_i c_i : Bool) : Bool × Bool :=
  (xor a_i (xor b_i c_i), (a_i && b_i) || (a_i && c_i) || (b_i && c_i))

/-- The `adder` chunk chains one `full_adder_bit` stage per bit, each stage's
carry output feeding the next stage's carry input.  Bits are little-endian
lists; the result is the list of sum bits together with the final carry.
The combinational network is a feed-forward chain, so its settled fixed point
is its functional evaluation. -/
def adderChain : List Bool → List Bool → Bool → List Bool × Bool
  | a :: as, b :: bs, c =>
      let fa := full_adder_bit a b c
      let rest := adderChain as bs fa.2
      (fa.1 :: rest.1, rest.2)
  | _, _, c => ([], c)

/-- Little-endian bit decomposition of a value onto a bus of width `w`. -/
def toBits : Nat → Nat → List Bool
  | 0, _ => []
  | w + 1, x => decide (x % 2 = 1) :: toBits w (x / 2)

/-- Value carried by a little-endian bit list. -/
def fromBits : List Bool → Nat
  | [] => 0
  | b :: bs => (cond b 1 0) + 2 * fromBits bs

/-- The `adder` chunk on `w`-bit operands, with the stage-0 carry input tied
to `0` as in the source (`c.i[0] = 0`): returns the settled sum value and the
final carry-out bit `c[w]`. -/
def adder (w : Nat) (a b : Nat) : Nat × Bool :=
  let r := adderChain (toBits w a) (toBits w b) false
  (fromBits r.1, r.2)

end Adder

namespace Blink

/-- One committed clock edge of the `counter` chunk (src/2/blinker.py): the
combinational `adder` settles `next_cnt` to `one + cnt` (the `one` bus holds
the constant `1`), and the `register` loads it on the rising edge.  The
register is built from per-bit `dff` flip-flops on the same clock, which
commit together, so the bus loads atomically. -/
def counterStep (w : Nat) (cnt : Nat) : Nat := (Adder.adder w 1 cnt).1

/-- Counter value after `k` rising clock edges, starting from `0`. -/
def counterRun (w : Nat) : Nat → Nat
  | 0 => 0
  | k + 1 => counterStep w (counterRun w k)

/-- The `blinker` output: the combinational `output_logic` block drives
`led_o` from the most significant counter bit, `cnt[length-1]`. -/
def led_o (w k : Nat) : Bool := (counterRun w k).testBit (w - 1)

end Blink

namespace Ram

/-- State of the single-port `ram` chunk (src/4/block_ram.py): the `mem` array
of locations and the registered `data_o` output. -/
structure RamState where
  mem    : Nat → Nat
  data_o : Nat

/-- The sequential block of `ram`: on a rising edge, if `wr_i` is high the
addressed location's next value is set to `data_i`; otherwise `data_o`'s next
value is set to the addressed location's current value (registered read, one
cycle of latency).  In each branch the other signal's next slot is left
untouched and so persists. -/
def ramLogic (s : RamState) (wr_i : Bool) (addr_i data_i : Nat) : RamState :=
  if wr_i then
    { s with mem := Function.update s.mem addr_i data_i }
  else
    { s with data_o := s.mem addr_i }

/-- State of the `dualport_ram` chunk: the `mem` array and the registered
`data_o` output. -/
structure DualRamState where
  mem    : Nat → Nat
  data_o : Nat

/-- The sequential block of `dualport_ram`: on a rising edge the write lands
in `mem[wr_addr_i]`'s next slot when `wr_i` is high, while `data_o`'s next
value is always the pre-edge current value of `mem[rd_addr_i]` — both reads
sample pre-edge state, and all next values commit together. -/
def dualport_ramLogic (s : DualRamState) (wr_i : Bool)
    (wr_addr_i rd_addr_i data_i : Nat) : DualRamState :=
  { mem := if wr_i then Function.update s.mem wr_addr_i data_i else s.mem,
    data_o := s.mem rd_addr_i }

end Ram

namespace Reset

/-- State of the `gen_reset` chunk (src/4/block_ram.py): the one-bit `cntr`
bus (values modulo 2) and the `reset_o` wire (0 or 1). -/
structure GenResetState where
  cntr    : Nat
  reset_o : Nat
deriving DecidableEq

/-- The sequential block of `gen_reset`: while the counter is below the
threshold `1` it asserts `reset_o` and increments the counter (the source
increments `cntr.next`, whose value at the start of an edge equals the
current value because the previous commit equalized the two slots);
afterwards it deasserts `reset_o` and stops incrementing, so `cntr`'s next
slot persists at its current value. -/
def gen_resetLogic (s : GenResetState) : GenResetState :=
  if s.cntr < 1 then
    { cntr := (s.cntr + 1) % 2, reset_o := 1 }
  else
    { s with reset_o := 0 }

/-- Run from power-up: counter and `reset_o` both start at `0`. -/
def gen_resetRun : Nat → GenResetState
  | 0 => ⟨0, 0⟩
  | k + 1 => gen_resetLogic (gen_resetRun k)

end Reset

namespace Fsm

/-- Encoding of the declared state set `State('A', 'B', 'C', 'D')` of
`classic_fsm` (src/5/fsm.py): four symbolic states on a 2-bit signal. -/
def stateA : Nat := 0

def stateB : Nat := 1

def stateC : Nat := 2

def stateD : Nat := 3

/-- Registered state of `classic_fsm`: the 2-bit `reset_cnt` bus, the 2-bit
`fsm_state` signal and the `prev_inputs` bus.  The debounced inputs
`dbnc_inputs` are the free input of the step; the combinational `detect_chg`
block settles `input_chgs = dbnc_inputs & ~prev_inputs` (complement on the
2-bit bus) before the edge. -/
structure FsmState where
  reset_cnt   : Nat
  fsm_state   : Nat
  prev_inputs : Nat
deriving DecidableEq

/-- The `next_state_logic` sequential block of `classic_fsm`: while
`reset_cnt < reset_cnt.max - 1 = 3` it forces state `A` and increments the
counter; otherwise it steps the four-state machine on the settled
`input_chgs` bits, leaving `fsm_state` unchanged when no change bit is set,
and always samples the debounced inputs into `prev_inputs`. -/
def next_state_logic (dbnc : Nat) (s : FsmState) : FsmState :=
  let chg := dbnc &&& (s.prev_inputs ^^^ 3)
  { reset_cnt := if s.reset_cnt < 3 then (s.reset_cnt + 1) % 4 else s.reset_cnt,
    fsm_state :=
      if s.reset_cnt < 3 then stateA
      else if s.fsm_state = stateA then
        (if chg.testBit 0 then stateB else if chg.testBit 1 then stateD else s.fsm_state)
      else if s.fsm_state = stateB then
        (if chg.testBit 0 then stateC else if chg.testBit 1 then stateA else s.fsm_state)
      else if s.fsm_state = stateC then
        (if chg.testBit 0 then stateD else if chg.testBit 1 then stateB else s.fsm_state)
      else if s.fsm_state = stateD then
        (if chg.testBit 0 then stateA else if chg.testBit 1 then stateC else s.fsm_state)
      else stateA,
    prev_inputs := dbnc }

/-- The combinational `output_logic` block of `classic_fsm`: a one-hot code
per state, with `0b1111` on the (unreachable) fall-through branch. -/
def output_logic (fsm_state : Nat) : Nat :=
  if fsm_state = stateA then 1
  else if fsm_state = stateB then 2
  else if fsm_state = stateC then 4
  else if fsm_state = stateD then 8
  else 15

/-- Run of `classic_fsm` from power-up (all registers zero, so `fsm_state`
starts at the `A` encoding), fed the debounced-input trace `dbnc`. -/
def fsmRun (dbnc : Nat → Nat) : Nat → FsmState
  | 0 => ⟨0, 0, 0⟩
  | k + 1 => next_state_logic (dbnc k) (fsmRun dbnc k)

end Fsm

namespace Adder

/-- Numeric content of one full-adder stage. -/
theorem full_adder_bit_val (a b c : Bool) :
    (cond (full_adder_bit a b c).1 1 0) + 2 * (cond (full_adder_bit a b c).2 1 0)
      = cond a 1 0 + cond b 1 0 + cond c 1 0 := by
  cases a <;> cases b <;> cases c <;> rfl

theorem adderChain_length :
    ∀ (xs ys : List Bool), xs.length = ys.length → ∀ cin : Bool,
      (adderChain xs ys cin).1.length = xs.length
  | [], [], _, _ => rfl
  | [], _ :: _, hlen, _ => absurd hlen (by simp)
  | _ :: _, [], hlen, _ => absurd hlen (by simp)
  | x :: xs, y :: ys, hlen, cin => by
      have ih := adderChain_length xs ys (by simpa using hlen) (full_adder_bit x y cin).2
      simp [adderChain, ih]

/-- Ripple-carry invariant: the value of the sum bits plus the weighted final
carry equals the sum of the operand values and the carry-in. -/
theorem adderChain_val :
    ∀ (xs ys : List Bool), xs.length = ys.length → ∀ cin : Bool,
      fromBits (adderChain xs ys cin).1
          + 2 ^ xs.length * (cond (adderChain xs ys cin).2 1 0)
        = fromBits xs + fromBits ys + cond cin 1 0
  | [], [], _, cin => by simp [adderChain, fromBits]
  | [], _ :: _, hlen, _ => absurd hlen (by simp)
  | _ :: _, [], hlen, _ => absurd hlen (by simp)
  | x :: xs, y :: ys, hlen, cin => by
      have ih := adderChain_val xs ys (by simpa using hlen) (full_adder_bit x y cin).2
      have hfab := full_adder_bit_val x y cin
      simp only [adderChain, fromBits, List.length_cons, pow_succ]
      calc (cond (full_adder_bit x y cin).1 1 0)
              + 2 * fromBits (adderChain xs ys (full_adder_bit x y cin).2).1
              + 2 ^ xs.length * 2
                * (cond (adderChain xs ys (full_adder_bit x y cin).2).2 1 0)
          = (cond (full_adder_bit x y cin).1 1 0)
              + 2 * (fromBits (adderChain xs ys (full_adder_bit x y cin).2).1
                + 2 ^ xs.length
                  * (cond (adderChain xs ys (full_adder_bit x y cin).2).2 1 0)) := by
            ring
        _ = (cond (full_adder_bit x y cin).1 1 0)
              + 2 * (fromBits xs + fromBits ys
                + cond (full_adder_bit x y cin).2 1 0) := by rw [ih]
        _ = ((cond (full_adder_bit x y cin).1 1 0)
              + 2 * cond (full_adder_bit x y cin).2 1 0)
              + 2 * fromBits xs + 2 * fromBits ys := by ring
        _ = (cond x 1 0 + cond y 1 0 + cond cin 1 0)
              + 2 * fromBits xs + 2 * fromBits ys := by rw [hfab]
        _ = cond x 1 0 + 2 * fromBits xs + (cond y 1 0 + 2 * fromBits ys)
              + cond cin 1 0 := by ring

theorem fromBits_lt : ∀ bs : List Bool, fromBits bs < 2 ^ bs.length
  | [] => by simp [fromBits]
  | b :: bs => by
      have ih := fromBits_lt bs
      have hb : cond b 1 0 ≤ 1 := by cases b <;> simp
      simp only [fromBits, List.length_cons, pow_succ]
      omega

theorem toBits_length : ∀ (w x : Nat), (toBits w x).length = w
  | 0, _ => rfl
  | w + 1, x => by simp [toBits, toBits_length w]

theorem fromBits_toBits : ∀ (w x : Nat), fromBits (toBits w x) = x % 2 ^ w
  | 0, x => by simp [toBits, fromBits, Nat.mod_one]
  | w + 1, x => by
      have ih := fromBits_toBits w (x / 2)
      have hsplit : x % 2 + 2 * (x / 2 % 2 ^ w) = x % 2 ^ (w + 1) := by
        have h1 : 2 * (x / 2) + x % 2 = x := Nat.div_add_mod x 2
        have h2 : 2 ^ w * (x / 2 / 2 ^ w) + x / 2 % 2 ^ w = x / 2 :=
          Nat.div_add_mod (x / 2) (2 ^ w)
        have hx : x % 2 + 2 * (x / 2 % 2 ^ w) + (x / 2 / 2 ^ w) * 2 ^ (w + 1) = x := by
          have h3 : (x / 2 / 2 ^ w) * 2 ^ (w + 1) = 2 * (2 ^ w * (x / 2 / 2 ^ w)) := by
            rw [pow_succ]
            ring
          rw [h3]
          omega
        have hlt : x % 2 + 2 * (x / 2 % 2 ^ w) < 2 ^ (w + 1) := by
          have hm2 : x % 2 < 2 := Nat.mod_lt _ (by omega)
          have hmw : x / 2 % 2 ^ w < 2 ^ w :=
            Nat.mod_lt _ (Nat.pos_pow_of_pos w (by omega))
          rw [pow_succ]
          omega
        calc x % 2 + 2 * (x / 2 % 2 ^ w)
            = (x % 2 + 2 * (x / 2 % 2 ^ w)) % 2 ^ (w + 1) :=
              (Nat.mod_eq_of_lt hlt).symm
          _ = (x % 2 + 2 * (x / 2 % 2 ^ w) + (x / 2 / 2 ^ w) * 2 ^ (w + 1))
                % 2 ^ (w + 1) := by
              rw [Nat.add_mul_mod_self_right]
          _ = x % 2 ^ (w + 1) := by rw [hx]
      have hcond : cond (decide (x % 2 = 1)) 1 0 = x % 2 := by
        rcases Nat.mod_two_eq_zero_or_one x with h | h <;> simp [h]
      simp only [toBits, fromBits, ih, hcond]
      exact hsplit

end Adder

namespace Deb

/-- A stable comparison with a nonzero counter decrements the counter and
changes nothing else. -/
theorem debEdge_match_pos (debounce_time : Nat) (v : Bool) (c : Nat) (o : Bool)
    (hc : c ≠ 0) :
    debEdge debounce_time v ⟨c, v, o⟩ = ⟨c - 1, v, o⟩ := by
  unfold debEdge next_state_logic output_logic
  simp [hc]

/-- A stable comparison with a zero counter latches `prev_button` to the
output and leaves the counter at zero. -/
theorem debEdge_match_zero (debounce_time : Nat) (v : Bool) (o : Bool) :
    debEdge debounce_time v ⟨0, v, o⟩ = ⟨0, v, v⟩ := by
  unfold debEdge next_state_logic output_logic
  simp

/-- A mismatch reloads the counter with the debounce interval and samples the
new input; the output slot is written (with the pre-edge `prev_button`) only
when the pre-edge counter was zero. -/
theorem debEdge_mismatch (debounce_time : Nat) (b p : Bool) (c : Nat) (o : Bool)
    (h : b ≠ p) :
    debEdge debounce_time b ⟨c, p, o⟩ = ⟨debounce_time, b, if c = 0 then p else o⟩ := by
  unfold debEdge next_state_logic output_logic
  by_cases hc : c = 0 <;> simp [h, hc]

theorem debSteps_add (debounce_time : Nat) (inp : Nat → Bool) (s : DebState) (a : Nat) :
    ∀ b, debSteps debounce_time inp s (a + b)
      = debSteps debounce_time (fun i => inp (a + i)) (debSteps debounce_time inp s a) b
  | 0 => rfl
  | b + 1 => by
      have ih := debSteps_add debounce_time inp s a b
      show debEdge debounce_time (inp (a + b)) (debSteps debounce_time inp s (a + b)) = _
      rw [ih]
      rfl

/-- Counting down under a steady input: after `j ≤ c` stable cycles the
counter has dropped by `j` and the output has not moved. -/
theorem debSteps_steady_count (debounce_time : Nat) (v : Bool) (o : Bool) (c : Nat) :
    ∀ j, j ≤ c →
      debSteps debounce_time (fun _ => v) ⟨c, v, o⟩ j = ⟨c - j, v, o⟩
  | 0, _ => rfl
  | j + 1, h => by
      have ih := debSteps_steady_count debounce_time v o c j (by omega)
      show debEdge debounce_time v (debSteps debounce_time (fun _ => v) ⟨c, v, o⟩ j) = _
      rw [ih, debEdge_match_pos debounce_time v (c - j) o (by omega)]
      have hsub : c - j - 1 = c - (j + 1) := by omega
      rw [hsub]

/-- The latched state is a fixed point of further steady cycles. -/
theorem debSteps_steady_fix (debounce_time : Nat) (v : Bool) :
    ∀ j, debSteps debounce_time (fun _ => v) ⟨0, v, v⟩ j = ⟨0, v, v⟩
  | 0 => rfl
  | j + 1 => by
      show debEdge debounce_time v (debSteps debounce_time (fun _ => v) ⟨0, v, v⟩ j) = _
      rw [debSteps_steady_fix debounce_time v j, debEdge_match_zero]

/-- After at least `c + 1` steady cycles from counter value `c` the stable
value has been latched to the output, and it stays latched. -/
theorem debSteps_steady_full (debounce_time : Nat) (v : Bool) (o : Bool) (c : Nat)
    (j : Nat) (hj : c + 1 ≤ j) :
    debSteps debounce_time (fun _ => v) ⟨c, v, o⟩ j = ⟨0, v, v⟩ := by
  obtain ⟨r, rfl⟩ : ∃ r, j = (c + 1) + r := ⟨j - (c + 1), by omega⟩
  rw [debSteps_add]
  have h1 : debSteps debounce_time (fun _ => v) ⟨c, v, o⟩ (c + 1) = ⟨0, v, v⟩ := by
    show debEdge debounce_time v (debSteps debounce_time (fun _ => v) ⟨c, v, o⟩ c) = _
    rw [debSteps_steady_count debounce_time v o c c (Nat.le_refl c), Nat.sub_self,
      debEdge_match_zero]
  rw [h1]
  exact debSteps_steady_fix debounce_time v r

theorem toggleInp_ge (v : Bool) (k j : Nat) (h : k ≤ j) : toggleInp v k j = v := by
  unfold toggleInp
  simp [Nat.not_lt.mpr h]

theorem toggleInp_last (v : Bool) (k : Nat) (hk : 1 ≤ k) :
    toggleInp v k (k - 1) = !v := by
  unfold toggleInp
  have h1 : k - 1 < k := by omega
  have h2 : k - (k - 1) = 1 := by omega
  simp [h1, h2]

/-- Consecutive positions of the toggle phase carry different values. -/
theorem toggleInp_succ_ne (v : Bool) (k j : Nat) (h : j + 1 < k) :
    toggleInp v k (j + 1) ≠ toggleInp v k j := by
  have hj : j < k := by omega
  intro heq
  simp only [toggleInp, if_pos h, if_pos hj] at heq
  have hdec : decide ((k - (j + 1)) % 2 = 1) = decide ((k - j) % 2 = 1) := by
    cases v <;> simpa using heq
  have hiff : ((k - (j + 1)) % 2 = 1) ↔ ((k - j) % 2 = 1) := decide_eq_decide.mp hdec
  have hA : k - j = (k - (j + 1)) + 1 := by omega
  rcases Nat.mod_two_eq_zero_or_one (k - (j + 1)) with hm | hm
  · have h1 : (k - j) % 2 = 1 := by omega
    have h2 := hiff.mpr h1
    omega
  · have h1 := hiff.mp hm
    omega

/-- Invariant of the toggle phase: while the input is still bouncing the
output has never moved, `prev_button` tracks the previous input sample, and
the counter is either freshly reloaded or has been pinned at zero with
`prev_button` still at its power-up value. -/
theorem deb_toggle_inv (debounce_time : Nat) (v : Bool) (k : Nat)
    (hT : debounce_time ≠ 0) :
    ∀ j, j ≤ k →
      (debRun debounce_time (toggleInp v k) j).button_o = false
      ∧ (debRun debounce_time (toggleInp v k) j).prev_button
          = (if j = 0 then false else toggleInp v k (j - 1))
      ∧ ((debRun debounce_time (toggleInp v k) j).debounce_cnt = debounce_time
          ∨ ((debRun debounce_time (toggleInp v k) j).debounce_cnt = 0
            ∧ (debRun debounce_time (toggleInp v k) j).prev_button = false)) := by
  intro j
  induction j with
  | zero => exact fun _ => ⟨rfl, rfl, Or.inr ⟨rfl, rfl⟩⟩
  | succ n ih =>
      intro hj
      have hn : n ≤ k := by omega
      obtain ⟨hout, hprev, hcnt⟩ := ih hn
      have hstep : debRun debounce_time (toggleInp v k) (n + 1)
          = debEdge debounce_time (toggleInp v k n)
              (debRun debounce_time (toggleInp v k) n) := rfl
      by_cases hn0 : n = 0
      · subst hn0
        have hinit : debRun debounce_time (toggleInp v k) 0 = ⟨0, false, false⟩ := rfl
        rw [hstep, hinit]
        cases hb : toggleInp v k 0 with
        | false =>
            rw [debEdge_match_zero]
            exact ⟨rfl, by simp, Or.inr ⟨rfl, rfl⟩⟩
        | true =>
            rw [debEdge_mismatch debounce_time true false 0 false (by simp)]
            exact ⟨by simp, by simp, Or.inl rfl⟩
      · rcases hs : debRun debounce_time (toggleInp v k) n with ⟨c, p, o⟩
        rw [hs] at hout hprev hcnt
        simp only at hout hprev hcnt
        rw [if_neg hn0] at hprev
        have hnk : n < k := by omega
        have hne : toggleInp v k n ≠ p := by
          rw [hprev]
          have := toggleInp_succ_ne v k (n - 1) (by omega)
          have hsub : n - 1 + 1 = n := by omega
          rwa [hsub] at this
        rw [hstep, hs, debEdge_mismatch debounce_time (toggleInp v k n) p c o hne]
        refine ⟨?_, rfl, Or.inl rfl⟩
        rcases hcnt with hcT | ⟨hc0, hp0⟩
        · rw [if_neg (by omega), hout]
        · rw [if_pos hc0, hp0]

/-- The edge that consumes the first steady sample after at least one toggle
reloads the counter and leaves the output at its power-up value. -/
theorem deb_after_last_toggle (debounce_time : Nat) (v : Bool) (k : Nat)
    (hT : debounce_time ≠ 0) (hk : 1 ≤ k) :
    debRun debounce_time (toggleInp v k) (k + 1) = ⟨debounce_time, v, false⟩ := by
  obtain ⟨hout, hprev, hcnt⟩ := deb_toggle_inv debounce_time v k hT k (Nat.le_refl k)
  rcases hs : debRun debounce_time (toggleInp v k) k with ⟨c, p, o⟩
  rw [hs] at hout hprev hcnt
  simp only at hout hprev hcnt
  rw [if_neg (by omega)] at hprev
  have hp : p = !v := by rw [hprev, toggleInp_last v k hk]
  have hstep : debRun debounce_time (toggleInp v k) (k + 1)
      = debEdge debounce_time (toggleInp v k k)
          (debRun debounce_time (toggleInp v k) k) := rfl
  rw [hstep, hs, toggleInp_ge v k k (Nat.le_refl k),
    debEdge_mismatch debounce_time v p c o (by rw [hp]; cases v <;> simp)]
  rcases hcnt with hcT | ⟨hc0, hp0⟩
  · rw [if_neg (by omega), hout]
  · rw [if_pos hc0, hp0]

/-- Safety half of the debounce property: with an input that toggles for the
first `k` cycles and then holds steady, the output has not changed from its
power-up value at any time up to `k + debounce_time` cycles. -/
theorem deb_part_a (v : Bool) (k debounce_time m : Nat)
    (hkT : k < debounce_time) (hm : m ≤ k + debounce_time) :
    (debRun debounce_time (toggleInp v k) m).button_o = false := by
  have hT : debounce_time ≠ 0 := by omega
  by_cases hmk : m ≤ k
  · exact (deb_toggle_inv debounce_time v k hT m hmk).1
  · obtain ⟨r, rfl⟩ : ∃ r, m = (k + 1) + r := ⟨m - (k + 1), by omega⟩
    have hr : r ≤ debounce_time := by omega
    have hsplit : debRun debounce_time (toggleInp v k) (k + 1 + r)
        = debSteps debounce_time (fun i => toggleInp v k (k + 1 + i))
            (debRun debounce_time (toggleInp v k) (k + 1)) r :=
      debSteps_add debounce_time (toggleInp v k) ⟨0, false, false⟩ (k + 1) r
    have hfun : (fun i => toggleInp v k (k + 1 + i)) = fun _ => v :=
      funext fun i => toggleInp_ge v k (k + 1 + i) (by omega)
    by_cases hk0 : k = 0
    · subst hk0
      rw [hsplit, hfun]
      cases v with
      | false =>
          have h1 : debRun debounce_time (toggleInp false 0) 1 = ⟨0, false, false⟩ := by
            have hstep : debRun debounce_time (toggleInp false 0) 1
                = debEdge debounce_time (toggleInp false 0 0) ⟨0, false, false⟩ := rfl
            rw [hstep, toggleInp_ge false 0 0 (Nat.le_refl 0), debEdge_match_zero]
          rw [h1]
          rw [show (⟨0, false, false⟩ : DebState) = ⟨0, false, false⟩ from rfl]
          rw [debSteps_steady_fix debounce_time false r]
      | true =>
          have h1 : debRun debounce_time (toggleInp true 0) 1
              = ⟨debounce_time, true, false⟩ := by
            have hstep : debRun debounce_time (toggleInp true 0) 1
                = debEdge debounce_time (toggleInp true 0 0) ⟨0, false, false⟩ := rfl
            rw [hstep, toggleInp_ge true 0 0 (Nat.le_refl 0),
              debEdge_mismatch debounce_time true false 0 false (by simp)]
            simp
          rw [h1, debSteps_steady_count debounce_time true false debounce_time r hr]
    · have h1 := deb_after_last_toggle debounce_time v k hT (by omega)
      rw [hsplit, hfun, h1,
        debSteps_steady_count debounce_time v false debounce_time r hr]

/-- Liveness half: an input held steady from power-up appears on the output
`debounce_time + 2` cycles later (one cycle to sample `prev_button` and
reload the counter, `debounce_time` cycles to count down, one more cycle to
latch the output), and stays there. -/
theorem deb_part_b (v : Bool) (debounce_time m : Nat) (hm : debounce_time + 2 ≤ m) :
    (debRun debounce_time (fun _ => v) m).button_o = v := by
  cases v with
  | false =>
      have : debRun debounce_time (fun _ => false) m = ⟨0, false, false⟩ :=
        debSteps_steady_fix debounce_time false m
      rw [this]
  | true =>
      obtain ⟨r, rfl⟩ : ∃ r, m = 1 + r := ⟨m - 1, by omega⟩
      have hsplit : debRun debounce_time (fun _ => true) (1 + r)
          = debSteps debounce_time (fun i => true)
              (debRun debounce_time (fun _ => true) 1) r :=
        debSteps_add debounce_time (fun _ => true) ⟨0, false, false⟩ 1 r
      have h1 : debRun debounce_time (fun _ => true) 1
          = ⟨debounce_time, true, false⟩ := by
        have hstep : debRun debounce_time (fun _ => true) 1
            = debEdge debounce_time true ⟨0, false, false⟩ := rfl
        rw [hstep, debEdge_mismatch debounce_time true false 0 false (by simp)]
        simp
      rw [hsplit, h1,
        debSteps_steady_full debounce_time true false debounce_time r (by omega)]

/-- Exactness: with a steady-high input the output is still at its power-up
value at every cycle up to `debounce_time + 1`. -/
theorem deb_part_b_not_before (debounce_time m : Nat) (hm : m ≤ debounce_time + 1) :
    (debRun debounce_time (fun _ => true) m).button_o = false := by
  match m, hm with
  | 0, _ => rfl
  | r + 1, hm =>
      have hsplit : debRun debounce_time (fun _ => true) (1 + r)
          = debSteps debounce_time (fun i => true)
              (debRun debounce_time (fun _ => true) 1) r :=
        debSteps_add debounce_time (fun _ => true) ⟨0, false, false⟩ 1 r
      have h1 : debRun debounce_time (fun _ => true) 1
          = ⟨debounce_time, true, false⟩ := by
        have hstep : debRun debounce_time (fun _ => true) 1
            = debEdge debounce_time true ⟨0, false, false⟩ := rfl
        rw [hstep, debEdge_mismatch debounce_time true false 0 false (by simp)]
        simp
      have hcomm : r + 1 = 1 + r := by omega
      rw [hcomm, hsplit, h1,
        debSteps_steady_count debounce_time true false debounce_time r (by omega)]

end Deb

namespace Pwm

/-- From the post-reset state the first edge takes the kick-start branch and
moves both `ramp_o` and `delta` to `1`. -/
theorem rampRun_one (m : Nat) (hm : 4 ≤ m) : rampRun m 1 = ⟨1, 1⟩ := by
  show rampEdge m ⟨0, 0⟩ = _
  unfold rampEdge rampLogic
  have h2 : (0 : Nat) ≠ m - 2 := by omega
  simp [h2]

/-- Climbing: with `delta = 1` and `1 ≤ ramp_o ≤ m - 3` the ramp value rises
by one and `delta` stays `1` (at `ramp_o = 1` the branch re-schedules the
same value). -/
theorem rampEdge_up (m : Nat) (hm : 4 ≤ m) (r : Nat) (h1 : 1 ≤ r) (h2 : r ≤ m - 3) :
    rampEdge m ⟨r, 1⟩ = ⟨r + 1, 1⟩ := by
  unfold rampEdge rampLogic
  have hmod : (r + 1) % m = r + 1 := Nat.mod_eq_of_lt (by omega)
  by_cases hr1 : r = 1
  · subst hr1
    simp [hmod]
  · have hrm2 : r ≠ m - 2 := by omega
    simp [hr1, hrm2, hmod]

theorem ramp_up (m : Nat) (hm : 4 ≤ m) :
    ∀ j, 1 ≤ j → j ≤ m - 2 → rampRun m j = ⟨j, 1⟩ := by
  intro j
  induction j with
  | zero => omega
  | succ n ih =>
      intro h1 h2
      by_cases hn0 : n = 0
      · subst hn0
        exact rampRun_one m hm
      · have hstep : rampRun m (n + 1) = rampEdge m (rampRun m n) := rfl
        rw [hstep, ih (by omega) (by omega), rampEdge_up m hm n (by omega) (by omega)]

/-- The cycle after the `m - 2` detection: the ramp overshoots to `m - 1`
while `delta` flips to `-1`. -/
theorem ramp_top (m : Nat) (hm : 4 ≤ m) : rampRun m (m - 1) = ⟨m - 1, m - 1⟩ := by
  have hup := ramp_up m hm (m - 2) (by omega) (Nat.le_refl (m - 2))
  have hidx : m - 1 = (m - 2) + 1 := by omega
  rw [hidx]
  show rampEdge m (rampRun m (m - 2)) = _
  rw [hup]
  unfold rampEdge rampLogic
  have hne1 : m - 2 ≠ 1 := by omega
  have hmod : (m - 2 + 1) % m = m - 1 := by
    have h : m - 2 + 1 = m - 1 := by omega
    rw [h, Nat.mod_eq_of_lt (by omega)]
  simp [hne1, hmod]
  omega

/-- Descending: with `delta = m - 1` (i.e. `-1`) and `2 ≤ ramp_o ≤ m - 1` the
ramp value drops by one and `delta` stays `m - 1` (at `ramp_o = m - 2` the
branch re-schedules the same value). -/
theorem rampEdge_down (m : Nat) (hm : 4 ≤ m) (r : Nat) (h1 : 2 ≤ r) (h2 : r ≤ m - 1) :
    rampEdge m ⟨r, m - 1⟩ = ⟨r - 1, m - 1⟩ := by
  unfold rampEdge rampLogic
  have hmod : (r + (m - 1)) % m = r - 1 := by
    have h : r + (m - 1) = (r - 1) + m := by omega
    rw [h, Nat.add_mod_right, Nat.mod_eq_of_lt (by omega)]
  have hne1 : r ≠ 1 := by omega
  by_cases hrm2 : r = m - 2
  · subst hrm2
    simp [hne1, hmod]
  · have hd : m - 1 ≠ 0 := by omega
    simp [hne1, hrm2, hd, hmod]

theorem ramp_down (m : Nat) (hm : 4 ≤ m) :
    ∀ i, i ≤ m - 2 → rampRun m (m - 1 + i) = ⟨m - 1 - i, m - 1⟩ := by
  intro i
  induction i with
  | zero => exact fun _ => ramp_top m hm
  | succ n ih =>
      intro h2
      have hstep : rampRun m (m - 1 + (n + 1)) = rampEdge m (rampRun m (m - 1 + n)) := rfl
      rw [hstep, ih (by omega),
        rampEdge_down m hm (m - 1 - n) (by omega) (by omega)]
      have h : m - 1 - n - 1 = m - 1 - (n + 1) := by omega
      rw [h]

/-- The cycle after the bottom detection at `ramp_o = 1`: the ramp touches
`0` while `delta` flips back to `+1`. -/
theorem ramp_bottom (m : Nat) (hm : 4 ≤ m) : rampRun m (2 * (m - 1)) = ⟨0, 1⟩ := by
  have hdown := ramp_down m hm (m - 2) (Nat.le_refl (m - 2))
  have hidx : 2 * (m - 1) = (m - 1 + (m - 2)) + 1 := by omega
  rw [hidx]
  show rampEdge m (rampRun m (m - 1 + (m - 2))) = _
  rw [hdown]
  have h1 : m - 1 - (m - 2) = 1 := by omega
  rw [h1]
  unfold rampEdge rampLogic
  have hmod : (1 + (m - 1)) % m = 0 := by
    have h : 1 + (m - 1) = m := by omega
    rw [h, Nat.mod_self]
  simp [hmod]

theorem rampEdge_restart (m : Nat) (hm : 4 ≤ m) : rampEdge m ⟨0, 1⟩ = ⟨1, 1⟩ := by
  unfold rampEdge rampLogic
  have h2 : (0 : Nat) ≠ m - 2 := by omega
  have hd : (1 : Nat) ≠ 0 := by omega
  have hmod : (0 + 1) % m = 1 := by
    rw [Nat.mod_eq_of_lt (by omega)]
  simp [h2, hd, hmod]

/-- Periodicity: from cycle `1` on, the ramp state repeats with period
`2 * (m - 1)`. -/
theorem ramp_periodic (m : Nat) (hm : 4 ≤ m) :
    ∀ j, 1 ≤ j → rampRun m (j + 2 * (m - 1)) = rampRun m j := by
  intro j hj
  obtain ⟨i, rfl⟩ : ∃ i, j = 1 + i := ⟨j - 1, by omega⟩
  clear hj
  induction i with
  | zero =>
      have hL : 1 + 0 + 2 * (m - 1) = (2 * (m - 1)) + 1 := by omega
      rw [hL]
      show rampEdge m (rampRun m (2 * (m - 1))) = _
      rw [ramp_bottom m hm, rampEdge_restart m hm]
      exact (rampRun_one m hm).symm
  | succ n ih =>
      have hL : 1 + (n + 1) + 2 * (m - 1) = (1 + n + 2 * (m - 1)) + 1 := by omega
      rw [hL]
      show rampEdge m (rampRun m (1 + n + 2 * (m - 1))) = _
      rw [ih]
      have hR : 1 + (n + 1) = (1 + n) + 1 := by omega
      rw [hR]
      rfl

end Pwm

namespace Reset

/-- After the first edge the counter sticks at `1`. -/
theorem gen_resetRun_cntr (k : Nat) (hk : 1 ≤ k) : (gen_resetRun k).cntr = 1 := by
  induction k with
  | zero => omega
  | succ n ih =>
      rcases Nat.eq_or_lt_of_le hk with h | h
      · have hn0 : n = 0 := by omega
        subst hn0
        simp [gen_resetRun, gen_resetLogic]
      · have hn : 1 ≤ n := by omega
        have := ih hn
        simp [gen_resetRun, gen_resetLogic, this]

end Reset

namespace Fsm

/-- Reachability invariant: `fsm_state` is always one of the four declared
state encodings. -/
theorem fsmRun_state_lt (dbnc : Nat → Nat) : ∀ k, (fsmRun dbnc k).fsm_state < 4 := by
  intro k
  induction k with
  | zero => exact Nat.zero_lt_succ 3
  | succ n ih =>
      simp only [fsmRun, next_state_logic]
      split_ifs <;>
        first
          | exact ih
          | (simp only [stateA, stateB, stateC, stateD]; omega)

end Fsm

/-- Claim C1: at a clock edge the two sequential blocks of the debouncer each
read only pre-edge current values and their scheduled next values commit
together, so the committed state is independent of the order in which the
blocks are evaluated; in particular the block writing `button_o` latches the
pre-edge `prev_button` value, even though the other block schedules
`prev_button := button_i` on the same edge. -/
theorem C1_edge_simultaneity (debounce_time : Nat) (button_i : Bool)
    (cur nxt : Deb.DebState) :
    Deb.output_logic cur (Deb.next_state_logic debounce_time button_i cur nxt)
      = Deb.next_state_logic debounce_time button_i cur (Deb.output_logic cur nxt)
    ∧ (Deb.next_state_logic debounce_time button_i cur nxt).prev_button = button_i
    ∧ (Deb.output_logic cur (Deb.next_state_logic debounce_time button_i cur nxt)).button_o
        = (if cur.debounce_cnt = 0 then cur.prev_button else nxt.button_o) := by
  unfold Deb.output_logic Deb.next_state_logic
  refine ⟨?_, ?_, ?_⟩ <;> dsimp only <;> split_ifs <;> rfl

/-- Claim C2: a next slot no block assigns in a round persists.  In the ramp
block, on a cycle where `ramp_o` is neither `1` nor `max - 2` and `delta` is
nonzero, `delta`'s scheduled next value is unchanged; in the debouncer,
`button_o`'s scheduled next value is unchanged whenever `debounce_cnt` is
nonzero. -/
theorem C2_next_slot_persists :
    (∀ (m : Nat) (cur nxt : Pwm.RampState),
      cur.ramp_o ≠ 1 → cur.ramp_o ≠ m - 2 → cur.delta ≠ 0 →
        (Pwm.rampLogic m cur nxt).delta = nxt.delta)
    ∧ (∀ cur nxt : Deb.DebState,
      cur.debounce_cnt ≠ 0 →
        (Deb.output_logic cur nxt).button_o = nxt.button_o) := by
  constructor
  · intro m cur nxt h1 h2 h3
    unfold Pwm.rampLogic
    simp [h1, h2, h3]
  · intro cur nxt h
    unfold Deb.output_logic
    simp [h]

/-- Witness for C2 at concrete states. -/
theorem C2_next_slot_persists_witness :
    ((3 : Nat) ≠ 1 ∧ (3 : Nat) ≠ 8 - 2 ∧ (1 : Nat) ≠ 0 ∧
      (Pwm.rampLogic 8 ⟨3, 1⟩ ⟨5, 2⟩).delta = 2)
    ∧ ((2 : Nat) ≠ 0 ∧
      (Deb.output_logic ⟨2, true, false⟩ ⟨9, false, true⟩).button_o = true) :=
  ⟨⟨by decide, by decide, by decide,
      C2_next_slot_persists.1 8 ⟨3, 1⟩ ⟨5, 2⟩ (by decide) (by decide) (by decide)⟩,
    ⟨by decide,
      C2_next_slot_persists.2 ⟨2, true, false⟩ ⟨9, false, true⟩ (by decide)⟩⟩

/-- Claim C3: for the `w`-stage ripple-carry adder built from `full_adder_bit`
stages with the stage-0 carry input tied to `0`, for all `a, b < 2 ^ w` the
settled sum value is `(a + b) % 2 ^ w` and the final carry-out bit is
`(a + b) >>> w` (as a numeral: `(a + b) / 2 ^ w`). -/
theorem C3_ripple_adder (w a b : Nat) (ha : a < 2 ^ w) (hb : b < 2 ^ w) :
    (Adder.adder w a b).1 = (a + b) % 2 ^ w
    ∧ (cond (Adder.adder w a b).2 1 0) = (a + b) / 2 ^ w := by
  have hlen : (Adder.toBits w a).length = (Adder.toBits w b).length := by
    rw [Adder.toBits_length, Adder.toBits_length]
  have key := Adder.adderChain_val (Adder.toBits w a) (Adder.toBits w b) hlen false
  rw [Adder.fromBits_toBits, Adder.fromBits_toBits, Adder.toBits_length,
    Nat.mod_eq_of_lt ha, Nat.mod_eq_of_lt hb] at key
  have hcf : (cond false 1 0 : Nat) = 0 := rfl
  rw [hcf, Nat.add_zero] at key
  have hS : Adder.fromBits (Adder.adderChain (Adder.toBits w a) (Adder.toBits w b) false).1
      < 2 ^ w := by
    have := Adder.fromBits_lt
      (Adder.adderChain (Adder.toBits w a) (Adder.toBits w b) false).1
    rwa [Adder.adderChain_length _ _ hlen, Adder.toBits_length] at this
  have hsum : a + b
      = Adder.fromBits (Adder.adderChain (Adder.toBits w a) (Adder.toBits w b) false).1
        + 2 ^ w * cond (Adder.adderChain (Adder.toBits w a) (Adder.toBits w b) false).2 1 0 := by
    omega
  constructor
  · show Adder.fromBits (Adder.adderChain (Adder.toBits w a) (Adder.toBits w b) false).1
        = (a + b) % 2 ^ w
    rw [hsum, Nat.mul_comm, Nat.add_mul_mod_self_right, Nat.mod_eq_of_lt hS]
  · show cond (Adder.adderChain (Adder.toBits w a) (Adder.toBits w b) false).2 1 0
        = (a + b) / 2 ^ w
    rw [hsum, Nat.mul_comm, Nat.add_mul_div_right _ _ (Nat.pos_pow_of_pos w (by omega)),
      Nat.div_eq_of_lt hS, Nat.zero_add]

/-- Witness for C3 at `w = 3`, `a = 5`, `b = 6`. -/
theorem C3_ripple_adder_witness :
    (5 : Nat) < 2 ^ 3 ∧ (6 : Nat) < 2 ^ 3
    ∧ (Adder.adder 3 5 6).1 = (5 + 6) % 2 ^ 3
    ∧ (cond (Adder.adder 3 5 6).2 1 0) = (5 + 6) / 2 ^ 3 :=
  ⟨by decide, by decide,
    (C3_ripple_adder 3 5 6 (by decide) (by decide)).1,
    (C3_ripple_adder 3 5 6 (by decide) (by decide)).2⟩

/-- Claim C4: the 3-bit counter driven by 16 rising clock edges from value `0`
takes the value sequence `0,1,2,3,4,5,6,7,0,1,2,3,4,5,6,7` (wrapping modulo
8), and the blinker output `led_o` (the counter's most significant bit)
toggles exactly at every fourth edge. -/
theorem C4_counter_blinker :
    (List.range 16).map (Blink.counterRun 3) = [0,1,2,3,4,5,6,7,0,1,2,3,4,5,6,7]
    ∧ ((List.range 15).all
        fun k => (Blink.led_o 3 (k+1) != Blink.led_o 3 k) == decide ((k+1) % 4 = 0))
      = true := by
  decide

/-- Claim C7: writing `v` to address `i` at one clock edge and reading address
`i` at the next edge (the read latency of both RAM variants is one cycle)
returns exactly `v`, for the single-port `ram` and for `dualport_ram`; and in
the dual-port RAM a read of an address `j` different from the address `i`
concurrently written in the same cycle returns the stored value at `j`,
unaffected by that write. -/
theorem C7_ram_roundtrip :
    (∀ (s : Ram.RamState) (i v d : Nat),
      (Ram.ramLogic (Ram.ramLogic s true i v) false i d).data_o = v)
    ∧ (∀ (s : Ram.DualRamState) (i r₁ w₂ v d : Nat),
      (Ram.dualport_ramLogic (Ram.dualport_ramLogic s true i r₁ v) false w₂ i d).data_o = v)
    ∧ (∀ (s : Ram.DualRamState) (i j v : Nat), j ≠ i →
      (Ram.dualport_ramLogic s true i j v).data_o = s.mem j
        ∧ (Ram.dualport_ramLogic s true i j v).mem j = s.mem j) := by
  refine ⟨?_, ?_, ?_⟩
  · intro s i v d
    simp [Ram.ramLogic, Function.update_same]
  · intro s i r₁ w₂ v d
    simp [Ram.dualport_ramLogic, Function.update_same]
  · intro s i j v hne
    constructor
    · simp [Ram.dualport_ramLogic]
    · simp [Ram.dualport_ramLogic, Function.update_noteq hne]

/-- Witness for C7 at a concrete memory and addresses. -/
theorem C7_ram_roundtrip_witness :
    (Ram.ramLogic (Ram.ramLogic ⟨fun _ => 0, 0⟩ true 4 7) false 4 9).data_o = 7
    ∧ (Ram.dualport_ramLogic
        (Ram.dualport_ramLogic ⟨fun a => a, 0⟩ true 4 1 7) false 2 4 9).data_o = 7
    ∧ ((3 : Nat) ≠ 4
      ∧ (Ram.dualport_ramLogic ⟨fun a => a, 0⟩ true 4 3 7).data_o = 3
      ∧ (Ram.dualport_ramLogic ⟨fun a => a, 0⟩ true 4 3 7).mem 3 = 3) :=
  ⟨C7_ram_roundtrip.1 ⟨fun _ => 0, 0⟩ 4 7 9,
    C7_ram_roundtrip.2.1 ⟨fun a => a, 0⟩ 4 1 2 7 9,
    by decide,
    (C7_ram_roundtrip.2.2 ⟨fun a => a, 0⟩ 4 3 7 (by decide)).1,
    (C7_ram_roundtrip.2.2 ⟨fun a => a, 0⟩ 4 3 7 (by decide)).2⟩

/-- Claim C8: in the dual-port RAM a read and a write addressed to the same
location `i` in the same clock cycle are legal, and `data_o` for that cycle
delivers the location's pre-write value: the write lands in the location's
next slot while the read samples its current value. -/
theorem C8_dualport_same_addr (s : Ram.DualRamState) (i v : Nat) :
    (Ram.dualport_ramLogic s true i i v).data_o = s.mem i
    ∧ (Ram.dualport_ramLogic s true i i v).mem i = v := by
  constructor
  · simp [Ram.dualport_ramLogic]
  · simp [Ram.dualport_ramLogic, Function.update_same]

/-- Claim C9: `gen_reset` asserts `reset_o = 1` on the first rising clock edge
after power-up and drives `reset_o = 0` on every rising edge thereafter; once
deasserted it is never asserted again. -/
theorem C9_gen_reset :
    (Reset.gen_resetRun 1).reset_o = 1
    ∧ ∀ k, 2 ≤ k → (Reset.gen_resetRun k).reset_o = 0 := by
  constructor
  · rfl
  · intro k hk
    obtain ⟨n, rfl⟩ : ∃ n, k = n + 1 := ⟨k - 1, by omega⟩
    have hc : (Reset.gen_resetRun n).cntr = 1 := Reset.gen_resetRun_cntr n (by omega)
    simp [Reset.gen_resetRun, Reset.gen_resetLogic, hc]

/-- Witness for C9 at the fifth edge. -/
theorem C9_gen_reset_witness :
    (2 : Nat) ≤ 5 ∧ (Reset.gen_resetRun 5).reset_o = 0 :=
  ⟨by decide, C9_gen_reset.2 5 (by decide)⟩

/-- Claim C5, counterexample: the claim says an input held steady from the
start appears on `button_o` exactly `debounce_time` cycles later; with
`debounce_time = 1` and the input held high, the output after 1 cycle is
still low. -/
theorem C5_debounce_cex :
    ¬ ((Deb.debRun 1 (fun _ => true) 1).button_o = true) := by decide

/-- Claim C5 as amended: (a) with an input that toggles every cycle for
`k < debounce_time` cycles and then holds steady, `button_o` does not change
from its power-up value until `debounce_time` consecutive stable cycles have
elapsed after the last toggle; (b) with an input held steady from the start,
`button_o` equals that input exactly `debounce_time + 2` cycles later — not
`debounce_time` — and still holds its power-up value at every earlier
cycle. -/
theorem C5_debounce_amended :
    (∀ (v : Bool) (k debounce_time m : Nat), k < debounce_time →
      m ≤ k + debounce_time →
        (Deb.debRun debounce_time (Deb.toggleInp v k) m).button_o = false)
    ∧ (∀ (v : Bool) (debounce_time m : Nat), debounce_time + 2 ≤ m →
        (Deb.debRun debounce_time (fun _ => v) m).button_o = v)
    ∧ (∀ (debounce_time m : Nat), m ≤ debounce_time + 1 →
        (Deb.debRun debounce_time (fun _ => true) m).button_o = false) :=
  ⟨Deb.deb_part_a, Deb.deb_part_b, Deb.deb_part_b_not_before⟩

/-- Witness for the amended C5 at concrete thresholds and traces. -/
theorem C5_debounce_amended_witness :
    ((1 : Nat) < 2 ∧ (3 : Nat) ≤ 1 + 2
      ∧ (Deb.debRun 2 (Deb.toggleInp true 1) 3).button_o = false)
    ∧ ((1 : Nat) + 2 ≤ 4 ∧ (Deb.debRun 1 (fun _ => true) 4).button_o = true)
    ∧ ((2 : Nat) ≤ 1 + 1 ∧ (Deb.debRun 1 (fun _ => true) 2).button_o = false) :=
  ⟨⟨by decide, by decide,
      C5_debounce_amended.1 true 1 2 3 (by decide) (by decide)⟩,
    ⟨by decide, C5_debounce_amended.2.1 true 1 4 (by decide)⟩,
    ⟨by decide, C5_debounce_amended.2.2 1 2 (by decide)⟩⟩

/-- Claim C6, counterexample: the claim says the ramp value strictly
increases until it reaches `max - 2` and then strictly decreases; with
`max = 8` the value reaches `max - 2 = 6` at cycle 6 but rises to `7` on the
next cycle instead of falling to `5` — the turnaround detected at `max - 2`
takes effect one cycle later, so the wave peaks at `max - 1`. -/
theorem C6_ramp_cex :
    (Pwm.rampRun 8 6).ramp_o = 6 ∧ (Pwm.rampRun 8 7).ramp_o = 7 := by decide

/-- Claim C6 as amended: from the post-reset state the first edge moves the
ramp to `1`; the value then climbs by one each cycle up to `max - 1` (one
past the turnaround detected at `max - 2`), descends by one each cycle down
to `0` (one past the turnaround detected at `1`), and repeats: a symmetric
periodic triangle wave between `0` and `max - 1` with period
`2 * (max - 1)`. -/
theorem C6_ramp_amended (m : Nat) (hm : 4 ≤ m) :
    Pwm.rampRun m 1 = ⟨1, 1⟩
    ∧ (∀ j, 1 ≤ j → j ≤ m - 1 → (Pwm.rampRun m j).ramp_o = j)
    ∧ (∀ i, i ≤ m - 1 → (Pwm.rampRun m (m - 1 + i)).ramp_o = m - 1 - i)
    ∧ (∀ j, 1 ≤ j → Pwm.rampRun m (j + 2 * (m - 1)) = Pwm.rampRun m j) := by
  refine ⟨Pwm.rampRun_one m hm, ?_, ?_, Pwm.ramp_periodic m hm⟩
  · intro j h1 h2
    by_cases hj : j ≤ m - 2
    · rw [Pwm.ramp_up m hm j h1 hj]
    · have hj1 : j = m - 1 := by omega
      rw [hj1, Pwm.ramp_top m hm]
  · intro i hi
    by_cases hi2 : i ≤ m - 2
    · rw [Pwm.ramp_down m hm i hi2]
    · have hi1 : i = m - 1 := by omega
      have hidx : m - 1 + i = 2 * (m - 1) := by omega
      rw [hidx, Pwm.ramp_bottom m hm]
      simp
      omega

/-- Witness for the amended C6 at `max = 8`. -/
theorem C6_ramp_amended_witness :
    (4 : Nat) ≤ 8 ∧ Pwm.rampRun 8 1 = ⟨1, 1⟩
    ∧ (Pwm.rampRun 8 7).ramp_o = 7
    ∧ (Pwm.rampRun 8 13).ramp_o = 1
    ∧ Pwm.rampRun 8 17 = Pwm.rampRun 8 3 :=
  ⟨by decide, (C6_ramp_amended 8 (by decide)).1,
    (C6_ramp_amended 8 (by decide)).2.1 7 (by decide) (by decide),
    (C6_ramp_amended 8 (by decide)).2.2.1 6 (by decide),
    (C6_ramp_amended 8 (by decide)).2.2.2 3 (by decide)⟩

/-- Claim C10: in `classic_fsm` the settled combinational output is always
one-hot: at every instant the reachable `fsm_state` is one of the four
declared states, and `outputs_o` equals `2 ^ b` for exactly one bit position
`b < 4`, with exactly that one bit set. -/
theorem C10_output_one_hot (dbnc : Nat → Nat) (k : Nat) :
    (Fsm.fsmRun dbnc k).fsm_state < 4
    ∧ ∃ b, b < 4 ∧ Fsm.output_logic (Fsm.fsmRun dbnc k).fsm_state = 2 ^ b
        ∧ ∀ i, (Fsm.output_logic (Fsm.fsmRun dbnc k).fsm_state).testBit i = true ↔ i = b := by
  have h4 := Fsm.fsmRun_state_lt dbnc k
  refine ⟨h4, ?_⟩
  have hcases : (Fsm.fsmRun dbnc k).fsm_state = 0 ∨ (Fsm.fsmRun dbnc k).fsm_state = 1
      ∨ (Fsm.fsmRun dbnc k).fsm_state = 2 ∨ (Fsm.fsmRun dbnc k).fsm_state = 3 := by
    omega
  have honehot : ∀ b i : Nat, (2 ^ b).testBit i = true ↔ i = b := by
    intro b i
    rw [Nat.testBit_two_pow]
    exact ⟨fun h => (of_decide_eq_true h).symm, fun h => decide_eq_true h.symm⟩
  rcases hcases with h | h | h | h <;> rw [h]
  · exact ⟨0, by omega, rfl, fun i => honehot 0 i⟩
  · exact ⟨1, by omega, rfl, fun i => honehot 1 i⟩
  · exact ⟨2, by omega, rfl, fun i => honehot 2 i⟩
  · exact ⟨3, by omega, rfl, fun i => honehot 3 i⟩

end ESL
